import Mathlib

/-!
Verification of the simpledex embedding pipeline
(scripts/build-embeddings.py and scripts/finetune_model.py).

Strings from the Python code are modelled as `List Char`; Python `dict`s
(insertion-ordered) as association lists whose update-in-place semantics is
`dictSet`; numpy float arrays as lists over `ℝ`; byte strings as `List ℕ`
with entries below 256.  The external inference engine, image decoding and
the 4-byte float32 encoding of `struct.pack "<f"` are opaque collaborators
of the script and enter as parameters (`infer`, `pre`, `pack`), exactly as
the spec designates them external interfaces.
-/

/-! ## Identifier codec (finetune_model.py lines 60-104, build-embeddings.py 91-111) -/

/-- The forward table `FILESYSTEM_CHAR_MAP` of finetune_model.py, in the
source's insertion order: unsafe character to placeholder. -/
def FILESYSTEM_CHAR_MAP : List (Char × List Char) :=
  [ ('!',  ['_','e','x','c','l','_']),
    ('?',  ['_','q','m','a','r','k','_']),
    ('*',  ['_','s','t','a','r','_']),
    ('<',  ['_','l','t','_']),
    ('>',  ['_','g','t','_']),
    ('"',  ['_','q','u','o','t','_']),
    ('|',  ['_','p','i','p','e','_']),
    ('\\', ['_','b','s','l','a','s','h','_']),
    ('/',  ['_','s','l','a','s','h','_']),
    (':',  ['_','c','o','l','o','n','_']),
    ('%',  ['_','p','c','t','_']) ]

/-- `FILESYSTEM_REVERSE_MAP = {v: k for k, v in FILESYSTEM_CHAR_MAP.items()}`:
same insertion order, roles swapped.  (build-embeddings.py writes the same
eleven pairs literally, in the same order.) -/
def FILESYSTEM_REVERSE_MAP : List (List Char × Char) :=
  FILESYSTEM_CHAR_MAP.map (fun q => (q.2, q.1))

/-- The interior letter runs of the eleven placeholders (each placeholder is
an underscore, the run, an underscore). -/
def interiors : List (List Char) :=
  [ ['e','x','c','l'], ['q','m','a','r','k'], ['s','t','a','r'],
    ['l','t'], ['g','t'], ['q','u','o','t'], ['p','i','p','e'],
    ['b','s','l','a','s','h'], ['s','l','a','s','h'],
    ['c','o','l','o','n'], ['p','c','t'] ]

/-- A character is in the unsafe set iff it is a key of the forward table. -/
def unsafeB (c : Char) : Bool :=
  FILESYSTEM_CHAR_MAP.any (fun q => q.1 = c)

/-- Hexadecimal digit test, as accepted by `urllib.parse.unquote`. -/
def isHexDigit (c : Char) : Bool :=
  c.isDigit || ('a' ≤ c && c ≤ 'f') || ('A' ≤ c && c ≤ 'F')

/-- Value of a hexadecimal digit. -/
def hexVal (c : Char) : ℕ :=
  if c.isDigit then c.toNat - 48
  else if 'a' ≤ c && c ≤ 'f' then c.toNat - 87
  else c.toNat - 55

/-- `urllib.parse.unquote`, modelled on percent-escapes that decode to a
single code point (the script only ever relies on ASCII escapes such as
`%3F`); an invalid escape is passed through unchanged, as in Python. -/
def unquote : List Char → List Char
  | c :: a :: b :: rest =>
      if c = '%' && isHexDigit a && isHexDigit b then
        Char.ofNat (16 * hexVal a + hexVal b) :: unquote rest
      else c :: unquote (a :: b :: rest)
  | s => s

/-- Fuel-driven worker for `replaceAll`; fuel at least the length of the
input makes it total.  One step either copies a character or, on a match of
`p`, emits `r` and jumps past the matched occurrence — exactly the
leftmost, non-overlapping semantics of Python's `str.replace`. -/
def replaceGo (p r : List Char) : ℕ → List Char → List Char
  | 0, s => s
  | fuel + 1, s =>
    match s with
    | [] => []
    | c :: cs =>
      if p.isPrefixOf (c :: cs) then
        r ++ replaceGo p r fuel (cs.drop (p.length - 1))
      else
        c :: replaceGo p r fuel cs

/-- Python `s.replace(p, r)` for a non-empty pattern `p` (every pattern in
the token table is non-empty; the empty-pattern case never arises). -/
def replaceAll (p r s : List Char) : List Char :=
  if p = [] then s else replaceGo p r s.length s

/-- `card_id_to_filename` (finetune_model.py 77-92): URL-decode, then
substitute each unsafe character by its placeholder, in table order. -/
def card_id_to_filename (card_id : List Char) : List Char :=
  FILESYSTEM_CHAR_MAP.foldl (fun res q => replaceAll [q.1] q.2 res) (unquote card_id)

/-- `filename_to_card_id` (finetune_model.py 95-104 and
build-embeddings.py 106-111): substitute each placeholder back to its
character, in table order. -/
def filename_to_card_id (filename : List Char) : List Char :=
  FILESYSTEM_REVERSE_MAP.foldl (fun res q => replaceAll q.1 [q.2] res) filename

/-- Does the string contain a percent-escape (`%` followed by two hex
digits) that `unquote` would rewrite? -/
def hasEscape : List Char → Bool
  | c :: a :: b :: rest =>
      (c = '%' && isHexDigit a && isHexDigit b) || hasEscape (a :: b :: rest)
  | _ => false

/-- Does some placeholder interior word occur immediately after this
position, followed by an unsafe character?  (Helper for `spuriousB`.) -/
def spurAt (cs : List Char) : Bool :=
  interiors.any (fun w =>
    w.isPrefixOf cs &&
      (match cs.drop w.length with
       | b :: _ => unsafeB b
       | [] => false))

/-- Does the identifier contain an interior word of some placeholder,
flanked on both sides by unsafe characters?  Such an occurrence makes the
encoding contain a placeholder that the decoder mistakes for a substituted
character. -/
def spuriousB : List Char → Bool
  | [] => false
  | c :: cs => (unsafeB c && spurAt cs) || spuriousB cs

/-- Substitution function induced by a list of (character, replacement)
pairs: the replacement of the first pair whose key matches, else the
character itself. -/
def encAfterL (ps : List (Char × List Char)) (c : Char) : List Char :=
  match ps.find? (fun q => q.1 = c) with
  | some q => q.2
  | none => [c]

/-- Character-wise concatenation map (our own `flatMap`, kept local so that
all its lemmas are self-contained). -/
def catMap {α β : Type} (f : α → List β) : List α → List β
  | [] => []
  | x :: xs => f x ++ catMap f xs

/-! ## Lemmas about `List.isPrefixOf` and `replaceAll` -/

lemma ipo_append_self (p r : List Char) : p.isPrefixOf (p ++ r) = true := by
  induction p with
  | nil => simp [List.isPrefixOf]
  | cons a as ih => simp [List.isPrefixOf, ih]

lemma ipo_append_or (x : List Char) :
    ∀ (y z : List Char), x.isPrefixOf (y ++ z) = true →
      x.isPrefixOf y = true ∨ y.isPrefixOf x = true := by
  induction x with
  | nil => intro y z _; left; simp [List.isPrefixOf]
  | cons a as ih =>
    intro y z h
    cases y with
    | nil => right; simp [List.isPrefixOf]
    | cons b bs =>
      simp only [List.cons_append, List.isPrefixOf, Bool.and_eq_true, beq_iff_eq] at h ⊢
      rcases ih bs z h.2 with h' | h'
      · exact Or.inl ⟨h.1, h'⟩
      · exact Or.inr ⟨h.1.symm, h'⟩

lemma replaceGo_fuel (p r : List Char) :
    ∀ f₁ f₂ (s : List Char), s.length ≤ f₁ → s.length ≤ f₂ →
      replaceGo p r f₁ s = replaceGo p r f₂ s := by
  intro f₁
  induction f₁ with
  | zero =>
    intro f₂ s h1 _
    have hs : s = [] := List.length_eq_zero.mp (Nat.le_zero.mp h1)
    subst hs
    cases f₂ <;> simp [replaceGo]
  | succ k ih =>
    intro f₂ s h1 h2
    cases s with
    | nil => cases f₂ <;> simp [replaceGo]
    | cons c cs =>
      cases f₂ with
      | zero => simp at h2
      | succ m =>
        simp only [replaceGo]
        by_cases hp : p.isPrefixOf (c :: cs) = true
        · rw [if_pos hp, if_pos hp]
          have hlen := List.length_drop (p.length - 1) cs
          have h1' : (cs.drop (p.length - 1)).length ≤ k := by
            simp only [List.length_cons] at h1; omega
          have h2' : (cs.drop (p.length - 1)).length ≤ m := by
            simp only [List.length_cons] at h2; omega
          rw [ih _ _ h1' h2']
        · rw [if_neg hp, if_neg hp]
          have h1' : cs.length ≤ k := by simp only [List.length_cons] at h1; omega
          have h2' : cs.length ≤ m := by simp only [List.length_cons] at h2; omega
          rw [ih _ _ h1' h2']

lemma replaceAll_nil (p r : List Char) : replaceAll p r [] = [] := by
  unfold replaceAll
  split <;> simp [replaceGo]

lemma replaceAll_pos (p r : List Char) (c : Char) (cs : List Char)
    (hp : p ≠ []) (h : p.isPrefixOf (c :: cs) = true) :
    replaceAll p r (c :: cs) = r ++ replaceAll p r (cs.drop (p.length - 1)) := by
  unfold replaceAll
  rw [if_neg hp, if_neg hp]
  simp only [List.length_cons, replaceGo]
  rw [if_pos h]
  congr 1
  apply replaceGo_fuel
  · simp only [List.length_drop]; omega
  · exact Nat.le_refl _

lemma replaceAll_neg (p r : List Char) (c : Char) (cs : List Char)
    (h : p.isPrefixOf (c :: cs) = false) :
    replaceAll p r (c :: cs) = c :: replaceAll p r cs := by
  have hp : p ≠ [] := by
    intro he; subst he; simp [List.isPrefixOf] at h
  unfold replaceAll
  rw [if_neg hp, if_neg hp]
  simp only [List.length_cons, replaceGo]
  rw [if_neg (by simp [h])]

/-! ## Lemmas about `catMap` and `encAfterL` -/

lemma catMap_nil {α β : Type} (f : α → List β) : catMap f [] = [] := rfl

lemma catMap_cons {α β : Type} (f : α → List β) (x : α) (xs : List α) :
    catMap f (x :: xs) = f x ++ catMap f xs := rfl

lemma catMap_append {α β : Type} (f : α → List β) (a b : List α) :
    catMap f (a ++ b) = catMap f a ++ catMap f b := by
  induction a with
  | nil => rfl
  | cons x xs ih => simp [catMap_cons, ih]

lemma catMap_congr {α β : Type} (f g : α → List β) (s : List α)
    (h : ∀ x ∈ s, f x = g x) : catMap f s = catMap g s := by
  induction s with
  | nil => rfl
  | cons x xs ih =>
    simp only [catMap_cons]
    rw [h x (List.mem_cons_self x xs), ih (fun y hy => h y (List.mem_cons_of_mem x hy))]

lemma catMap_id (s : List Char) : catMap (fun x => [x]) s = s := by
  induction s with
  | nil => rfl
  | cons x xs ih => simp [catMap_cons, ih]

lemma catMap_catMap (f : Char → List Char) (g : Char → List Char) (s : List Char) :
    catMap g (catMap f s) = catMap (fun x => catMap g (f x)) s := by
  induction s with
  | nil => rfl
  | cons x xs ih => simp [catMap_cons, catMap_append, ih]

lemma encAfterL_nil (c : Char) : encAfterL [] c = [c] := rfl

lemma encAfterL_cons_self (c : Char) (p : List Char) (rest : List (Char × List Char)) :
    encAfterL ((c, p) :: rest) c = p := by
  simp [encAfterL, List.find?]

lemma encAfterL_cons_ne (x c : Char) (p : List Char) (rest : List (Char × List Char))
    (h : x ≠ c) : encAfterL ((c, p) :: rest) x = encAfterL rest x := by
  have hcx : (decide (c = x)) = false := decide_eq_false (fun he => h he.symm)
  simp [encAfterL, List.find?, hcx]

lemma encAfterL_not_mem (ps : List (Char × List Char)) (x : Char)
    (h : ∀ q ∈ ps, q.1 ≠ x) : encAfterL ps x = [x] := by
  induction ps with
  | nil => rfl
  | cons q rest ih =>
    obtain ⟨c, p⟩ := q
    rw [encAfterL_cons_ne x c p rest (fun he => h (c, p) (List.mem_cons_self _ _) (he ▸ rfl))]
    exact ih (fun q' hq' => h q' (List.mem_cons_of_mem _ hq'))

lemma encAfterL_mem (ps : List (Char × List Char))
    (hnd : (ps.map Prod.fst).Nodup) (q : Char × List Char) (hq : q ∈ ps) :
    encAfterL ps q.1 = q.2 := by
  induction ps with
  | nil => simp at hq
  | cons q0 rest ih =>
    obtain ⟨c, p⟩ := q0
    rcases List.mem_cons.mp hq with he | hm
    · subst he; exact encAfterL_cons_self _ _ _
    · have hne : q.1 ≠ c := by
        intro he
        have : q.1 ∈ rest.map Prod.fst := List.mem_map_of_mem Prod.fst hm
        rw [he] at this
        exact (List.nodup_cons.mp (by simpa using hnd)).1 this
      rw [encAfterL_cons_ne _ _ _ _ hne]
      exact ih (List.nodup_cons.mp (by simpa using hnd)).2 hm

/-! ## Decidable facts about the concrete token table -/

lemma fact_nodup : (FILESYSTEM_CHAR_MAP.map Prod.fst).Nodup := by decide

lemma fact_shape : ∀ q ∈ FILESYSTEM_CHAR_MAP, ∃ w ∈ interiors, q.2 = '_' :: (w ++ ['_']) := by
  decide

lemma fact_interiors : ∀ w ∈ interiors, w ≠ [] ∧ ∀ ch ∈ w, ch ≠ '_' ∧ unsafeB ch = false := by
  decide

lemma fact_prefix_free : ∀ q ∈ FILESYSTEM_CHAR_MAP, ∀ q' ∈ FILESYSTEM_CHAR_MAP,
    q.1 ≠ q'.1 → q.2.isPrefixOf q'.2 = false := by decide

lemma fact_ph_safe : ∀ q ∈ FILESYSTEM_CHAR_MAP, ∀ q' ∈ FILESYSTEM_CHAR_MAP,
    ∀ ch ∈ q'.2, q.1 ≠ ch := by decide

lemma unsafeB_iff (ch : Char) :
    unsafeB ch = true ↔ ∃ q ∈ FILESYSTEM_CHAR_MAP, q.1 = ch := by
  simp [unsafeB, List.any_eq_true]

/-! ## The encoding fold is a character-wise substitution -/

lemma replaceAll_single (c : Char) (rep : List Char) :
    ∀ s, replaceAll [c] rep s = catMap (fun x => if x = c then rep else [x]) s := by
  intro s
  induction s with
  | nil => simp [replaceAll_nil, catMap_nil]
  | cons x xs ih =>
    by_cases hx : x = c
    · subst hx
      have h : [x].isPrefixOf (x :: xs) = true := by simp [List.isPrefixOf]
      rw [replaceAll_pos _ _ _ _ (by simp) h]
      simp [catMap_cons, ih]
    · have h : [c].isPrefixOf (x :: xs) = false := by
        simp [List.isPrefixOf]
        exact fun he => hx he.symm
      rw [replaceAll_neg _ _ _ _ h]
      simp [catMap_cons, ih, hx]

lemma catMap_fixed (ps : List (Char × List Char)) (l : List Char)
    (h : ∀ ch ∈ l, ∀ q ∈ ps, q.1 ≠ ch) : catMap (encAfterL ps) l = l := by
  have he : catMap (encAfterL ps) l = catMap (fun x => [x]) l :=
    catMap_congr _ _ l (fun x hx => encAfterL_not_mem ps x (fun q hq => h x hx q hq))
  rw [he, catMap_id]

lemma encode_fold (ps : List (Char × List Char))
    (hnd : (ps.map Prod.fst).Nodup)
    (hsafe : ∀ q ∈ ps, ∀ q' ∈ ps, ∀ ch ∈ q'.2, q.1 ≠ ch) :
    ∀ s, ps.foldl (fun res q => replaceAll [q.1] q.2 res) s = catMap (encAfterL ps) s := by
  induction ps with
  | nil =>
    intro s
    simp only [List.foldl_nil]
    exact (catMap_fixed [] s (by simp)).symm
  | cons q rest ih =>
    intro s
    obtain ⟨c, p⟩ := q
    have hnd' : (rest.map Prod.fst).Nodup := (List.nodup_cons.mp (by simpa using hnd)).2
    have hsafe' : ∀ q ∈ rest, ∀ q' ∈ rest, ∀ ch ∈ q'.2, q.1 ≠ ch :=
      fun q hq q' hq' => hsafe q (List.mem_cons_of_mem _ hq) q' (List.mem_cons_of_mem _ hq')
    simp only [List.foldl_cons]
    rw [ih hnd' hsafe' (replaceAll [c] p s), replaceAll_single, catMap_catMap]
    apply catMap_congr
    intro x _
    by_cases hx : x = c
    · subst hx
      rw [if_pos rfl, encAfterL_cons_self]
      exact catMap_fixed rest p
        (fun ch hch q' hq' =>
          hsafe q' (List.mem_cons_of_mem _ hq') (x, p) (List.mem_cons_self _ _) ch hch)
    · rw [if_neg hx, encAfterL_cons_ne x c p rest hx]
      simp [catMap_cons, catMap_nil]

/-! ## `unquote` is the identity in the absence of percent-escapes -/

lemma unquote_noescape (id : List Char) (h : hasEscape id = false) : unquote id = id := by
  induction id using unquote.induct with
  | case1 c a b rest hcond _ =>
    exfalso
    simp only [hasEscape, Bool.or_eq_false_iff] at h
    rw [h.1] at hcond
    simp at hcond
  | case2 c a b rest hcond ih =>
    have h' : hasEscape (a :: b :: rest) = false := by
      simp only [hasEscape, Bool.or_eq_false_iff] at h
      exact h.2
    simp only [unquote]
    rw [if_neg hcond, ih h']
  | case3 s hs => simp [unquote, hs]

/-! ## The decoding fold undoes the substitution, block by block -/

lemma sublist_nodup_fst (ps : List (Char × List Char))
    (hsub : ps.Sublist FILESYSTEM_CHAR_MAP) : (ps.map Prod.fst).Nodup :=
  List.Nodup.sublist (List.Sublist.map Prod.fst hsub) fact_nodup

lemma extract_word (ps : List (Char × List Char)) (hsub : ps.Sublist FILESYSTEM_CHAR_MAP)
    (w : List Char) (hw : ∀ ch ∈ w, ch ≠ '_' ∧ unsafeB ch = false) :
    ∀ cs, '_' ∉ cs →
      ((w ++ ['_']).isPrefixOf (catMap (encAfterL ps) cs)) = true →
      ∃ b cs₂, cs = w ++ b :: cs₂ ∧ b ∈ ps.map Prod.fst := by
  induction w with
  | nil =>
    intro cs hcs hpre
    cases cs with
    | nil => simp [catMap_nil, List.isPrefixOf] at hpre
    | cons x cs' =>
      rw [catMap_cons] at hpre
      by_cases hx : x ∈ ps.map Prod.fst
      · exact ⟨x, cs', rfl, hx⟩
      · have hne : ∀ q ∈ ps, q.1 ≠ x :=
          fun q hq he => hx (he ▸ List.mem_map_of_mem Prod.fst hq)
        rw [encAfterL_not_mem ps x hne] at hpre
        simp only [List.nil_append, List.singleton_append, List.isPrefixOf,
          Bool.and_eq_true, beq_iff_eq] at hpre
        exact absurd (show ('_' : Char) ∈ x :: cs' by
          rw [← hpre.1]; exact List.mem_cons_self _ _) hcs
  | cons l w' ih =>
    intro cs hcs hpre
    have hl := hw l (List.mem_cons_self l w')
    cases cs with
    | nil => simp [catMap_nil, List.isPrefixOf] at hpre
    | cons x cs' =>
      rw [catMap_cons] at hpre
      by_cases hx : x ∈ ps.map Prod.fst
      · obtain ⟨q, hq, hq1⟩ := List.mem_map.mp hx
        have hqM : q ∈ FILESYSTEM_CHAR_MAP := hsub.subset hq
        obtain ⟨wi, hwiI, hshape⟩ := fact_shape q hqM
        have hbl : encAfterL ps x = q.2 := by
          rw [← hq1]; exact encAfterL_mem ps (sublist_nodup_fst ps hsub) q hq
        rw [hbl, hshape] at hpre
        simp only [List.cons_append, List.isPrefixOf, Bool.and_eq_true, beq_iff_eq] at hpre
        exact absurd hpre.1 hl.1
      · have hne : ∀ q ∈ ps, q.1 ≠ x :=
          fun q hq he => hx (he ▸ List.mem_map_of_mem Prod.fst hq)
        rw [encAfterL_not_mem ps x hne] at hpre
        simp only [List.cons_append, List.singleton_append, List.isPrefixOf,
          Bool.and_eq_true, beq_iff_eq] at hpre
        obtain ⟨hlx, hrest⟩ := hpre
        subst hlx
        obtain ⟨b, cs₂, hcseq, hb⟩ :=
          ih (fun ch h => hw ch (List.mem_cons_of_mem l h)) cs'
            (fun h => hcs (List.mem_cons_of_mem _ h)) hrest
        exact ⟨b, cs₂, by rw [hcseq]; rfl, hb⟩

lemma replaceAll_letters (pt r : List Char) :
    ∀ (w s : List Char), (∀ ch ∈ w, ch ≠ '_') →
      replaceAll ('_' :: pt) r (w ++ s) = w ++ replaceAll ('_' :: pt) r s := by
  intro w
  induction w with
  | nil => intro s _; simp
  | cons a w' ih =>
    intro s hw
    have ha : a ≠ '_' := hw a (List.mem_cons_self a w')
    have hnp : ('_' :: pt).isPrefixOf (a :: (w' ++ s)) = false := by
      have hba : ('_' == a) = false := beq_eq_false_iff_ne.mpr (fun he => ha he.symm)
      simp [List.isPrefixOf, hba]
    rw [List.cons_append, replaceAll_neg _ _ _ _ hnp,
      ih s (fun ch h => hw ch (List.mem_cons_of_mem a h))]
    rfl

lemma replaceAll_strip (p pw r s : List Char) (hp : p = '_' :: (pw ++ ['_'])) :
    replaceAll p r (p ++ s) = r ++ replaceAll p r s := by
  subst hp
  rw [List.cons_append,
    replaceAll_pos _ _ _ _ (by simp) (by rw [← List.cons_append]; exact ipo_append_self _ _)]
  have hlen : (('_' :: (pw ++ ['_'])).length - 1) = (pw ++ ['_']).length := by simp
  rw [hlen, List.drop_left]

lemma replaceAll_skip_char (p pw r : List Char) (x : Char) (s : List Char)
    (hp : p = '_' :: (pw ++ ['_'])) (hx : x ≠ '_') :
    replaceAll p r (x :: s) = x :: replaceAll p r s := by
  subst hp
  apply replaceAll_neg
  have hbx : ('_' == x) = false := beq_eq_false_iff_ne.mpr (fun he => hx he.symm)
  simp [List.isPrefixOf, hbx]

lemma replaceAll_skip_block (p bl pw pw' r s : List Char)
    (hp : p = '_' :: (pw ++ ['_'])) (hbl : bl = '_' :: (pw' ++ ['_']))
    (hw' : ∀ ch ∈ pw', ch ≠ '_')
    (hnp1 : p.isPrefixOf bl = false) (hnp2 : bl.isPrefixOf p = false)
    (htail : (pw ++ ['_']).isPrefixOf s = false) :
    replaceAll p r (bl ++ s) = bl ++ replaceAll p r s := by
  subst hp; subst hbl
  have h0 : ('_' :: (pw ++ ['_'])).isPrefixOf (('_' :: (pw' ++ ['_'])) ++ s) = false := by
    cases h : ('_' :: (pw ++ ['_'])).isPrefixOf (('_' :: (pw' ++ ['_'])) ++ s) with
    | false => rfl
    | true =>
      rcases ipo_append_or _ _ _ h with h' | h'
      · rw [hnp1] at h'; exact absurd h' (by simp)
      · rw [hnp2] at h'; exact absurd h' (by simp)
  have hsh : (('_' :: (pw' ++ ['_'])) ++ s) = '_' :: (pw' ++ ('_' :: s)) := by simp
  rw [hsh] at h0
  rw [hsh, replaceAll_neg _ _ _ _ h0, replaceAll_letters _ _ pw' ('_' :: s) hw']
  have h1 : ('_' :: (pw ++ ['_'])).isPrefixOf ('_' :: s) = false := by
    simp [List.isPrefixOf, htail]
  rw [replaceAll_neg _ _ _ _ h1]
  simp

lemma spuriousB_cons_false {x : Char} {cs : List Char} (h : spuriousB (x :: cs) = false) :
    (unsafeB x && spurAt cs) = false ∧ spuriousB cs = false := by
  simpa [spuriousB, Bool.or_eq_false_iff] using h

lemma spurAt_of (cs w : List Char) (b : Char) (cs₂ : List Char) (hwI : w ∈ interiors)
    (hcs : cs = w ++ b :: cs₂) (hb : unsafeB b = true) : spurAt cs = true := by
  simp only [spurAt, List.any_eq_true]
  refine ⟨w, hwI, ?_⟩
  subst hcs
  simp [ipo_append_self, List.drop_left, hb]

lemma decode_pass (c : Char) (p : List Char) (rest : List (Char × List Char))
    (hsub : ((c, p) :: rest).Sublist FILESYSTEM_CHAR_MAP) :
    ∀ id, '_' ∉ id → spuriousB id = false →
      replaceAll p [c] (catMap (encAfterL ((c, p) :: rest)) id)
        = catMap (encAfterL rest) id := by
  have hmem : (c, p) ∈ FILESYSTEM_CHAR_MAP := hsub.subset (List.mem_cons_self _ _)
  obtain ⟨pw, hpwI, hpshape⟩ := fact_shape (c, p) hmem
  have hnd : (((c, p) :: rest).map Prod.fst).Nodup := sublist_nodup_fst _ hsub
  have hndr : (rest.map Prod.fst).Nodup := (List.nodup_cons.mp (by simpa using hnd)).2
  have hcnotr : c ∉ rest.map Prod.fst := (List.nodup_cons.mp (by simpa using hnd)).1
  intro id
  induction id with
  | nil => intro _ _; simp [catMap_nil, replaceAll_nil]
  | cons x cs ih =>
    intro hu hsp
    have hu' : '_' ∉ cs := fun h => hu (List.mem_cons_of_mem x h)
    obtain ⟨hspur1, hsp'⟩ := spuriousB_cons_false hsp
    have hxund : x ≠ '_' := fun he => hu (by rw [← he]; exact List.mem_cons_self x cs)
    by_cases hxc : x = c
    · rw [hxc, catMap_cons, encAfterL_cons_self,
        replaceAll_strip p pw [c] _ hpshape, ih hu' hsp', catMap_cons,
        encAfterL_not_mem rest c
          (fun q hq he => hcnotr (he ▸ List.mem_map_of_mem Prod.fst hq))]
    · by_cases hxr : x ∈ rest.map Prod.fst
      · obtain ⟨q, hq, hq1⟩ := List.mem_map.mp hxr
        have hqM : q ∈ FILESYSTEM_CHAR_MAP := hsub.subset (List.mem_cons_of_mem _ hq)
        obtain ⟨pw', hpw'I, hq2shape⟩ := fact_shape q hqM
        have hblock : encAfterL ((c, p) :: rest) x = q.2 := by
          rw [encAfterL_cons_ne x c p rest hxc, ← hq1]
          exact encAfterL_mem rest hndr q hq
        have hblockr : encAfterL rest x = q.2 := by
          rw [← hq1]; exact encAfterL_mem rest hndr q hq
        have hne1 : ((c, p) : Char × List Char).1 ≠ q.1 := by
          intro he
          exact hxc (by rw [← hq1, ← he])
        have hnp1 : p.isPrefixOf q.2 = false := fact_prefix_free (c, p) hmem q hqM hne1
        have hnp2 : q.2.isPrefixOf p = false :=
          fact_prefix_free q hqM (c, p) hmem (fun he => hne1 he.symm)
        have hw'chars : ∀ ch ∈ pw', ch ≠ '_' :=
          fun ch h => ((fact_interiors pw' hpw'I).2 ch h).1
        have htail : (pw ++ ['_']).isPrefixOf
            (catMap (encAfterL ((c, p) :: rest)) cs) = false := by
          cases htl : (pw ++ ['_']).isPrefixOf (catMap (encAfterL ((c, p) :: rest)) cs) with
          | false => rfl
          | true =>
            exfalso
            have hpwchars : ∀ ch ∈ pw, ch ≠ '_' ∧ unsafeB ch = false :=
              fun ch h => (fact_interiors pw hpwI).2 ch h
            obtain ⟨b, cs₂, hcseq, hbmem⟩ :=
              extract_word ((c, p) :: rest) hsub pw hpwchars cs hu' htl
            have hxu : unsafeB x = true := (unsafeB_iff x).mpr ⟨q, hqM, hq1⟩
            have hbu : unsafeB b = true := by
              obtain ⟨qb, hqb, hqb1⟩ := List.mem_map.mp hbmem
              exact (unsafeB_iff b).mpr ⟨qb, hsub.subset hqb, hqb1⟩
            have hspat : spurAt cs = true := spurAt_of cs pw b cs₂ hpwI hcseq hbu
            rw [hxu, hspat] at hspur1
            simp at hspur1
        rw [catMap_cons, hblock,
          replaceAll_skip_block p q.2 pw pw' [c] _ hpshape hq2shape hw'chars hnp1 hnp2 htail,
          ih hu' hsp', catMap_cons, hblockr]
      · have hne : ∀ q ∈ (c, p) :: rest, q.1 ≠ x := by
          intro q hq he
          rcases List.mem_cons.mp hq with he2 | hm
          · exact hxc (by rw [← he, he2])
          · exact hxr (he ▸ List.mem_map_of_mem Prod.fst hm)
        rw [catMap_cons, encAfterL_not_mem _ x hne, List.singleton_append,
          replaceAll_skip_char p pw [c] x _ hpshape hxund, ih hu' hsp', catMap_cons,
          encAfterL_not_mem rest x (fun q hq => hne q (List.mem_cons_of_mem _ hq))]
        rfl

lemma decode_fold (ps : List (Char × List Char)) :
    ps.Sublist FILESYSTEM_CHAR_MAP →
    ∀ id, '_' ∉ id → spuriousB id = false →
      (ps.map (fun q => (q.2, q.1))).foldl (fun res q => replaceAll q.1 [q.2] res)
        (catMap (encAfterL ps) id) = id := by
  induction ps with
  | nil =>
    intro _ id _ _
    simp only [List.map_nil, List.foldl_nil]
    exact catMap_fixed [] id (by simp)
  | cons q rest ih =>
    intro hsub id hu hsp
    obtain ⟨c, p⟩ := q
    simp only [List.map_cons, List.foldl_cons]
    rw [decode_pass c p rest hsub id hu hsp]
    exact ih (List.sublist_of_cons_sublist hsub) id hu hsp

/-! ## Claim C2: codec round-trip -/

/-- Claim C2 (amended): decoding the encoding is the identity for every
identifier over the table characters plus the placeholder-safe alphabet,
provided the identifier contains no underscore, no percent-escape
(`%` followed by two hexadecimal digits, which `unquote` would collapse),
and no placeholder interior word flanked on both sides by table
characters (which would make the encoding contain a spurious placeholder).
Without these provisos the round-trip fails, as the counterexample shows. -/
theorem c2_codec_roundtrip_amended (id : List Char)
    (hund : '_' ∉ id) (hesc : hasEscape id = false) (hspur : spuriousB id = false) :
    filename_to_card_id (card_id_to_filename id) = id := by
  unfold card_id_to_filename filename_to_card_id FILESYSTEM_REVERSE_MAP
  rw [unquote_noescape id hesc, encode_fold FILESYSTEM_CHAR_MAP fact_nodup fact_ph_safe id]
  exact decode_fold FILESYSTEM_CHAR_MAP (List.Sublist.refl _) id hund hspur

/-- Claim C2 witness: the round-trip on the well-formed identifier
`ex10-!` returns it unchanged. -/
theorem c2_codec_roundtrip_amended_witness :
    ('_' ∉ ['e','x','1','0','-','!']
      ∧ hasEscape ['e','x','1','0','-','!'] = false
      ∧ spuriousB ['e','x','1','0','-','!'] = false)
    ∧ filename_to_card_id (card_id_to_filename ['e','x','1','0','-','!'])
        = ['e','x','1','0','-','!'] :=
  ⟨⟨by decide, by decide, by decide⟩,
    c2_codec_roundtrip_amended ['e','x','1','0','-','!'] (by decide) (by decide) (by decide)⟩

/-- Claim C2 counterexample: the identifier `<excl<` is composed only of a
table character (`<`) and placeholder-safe letters, yet encoding yields
`_lt_excl_lt_`, whose decoding is `_lt!lt_`, not `<excl<`.  The claim as
stated is therefore false. -/
theorem c2_codec_roundtrip_cex :
    filename_to_card_id (card_id_to_filename ['<','e','x','c','l','<'])
        = ['_','l','t','!','l','t','_']
      ∧ ['_','l','t','!','l','t','_'] ≠ ['<','e','x','c','l','<'] :=
  ⟨by decide, by decide⟩

/-! ## Pooling and normalization (build-embeddings.py 221-265) -/

/-- Raw inference output: shape `(batch, dim)` or `(batch, seq, dim)`
(`session.run` returns one of these two ranks; the rank test
`len(outputs.shape) == 3` becomes the constructor distinction). -/
inductive NDArray where
  | two (m : List (List ℝ))
  | three (t : List (List (List ℝ)))

/-- Sum of squares of the entries of a vector. -/
noncomputable def sumSq : List ℝ → ℝ
  | [] => 0
  | x :: xs => x ^ 2 + sumSq xs

/-- Euclidean norm `np.linalg.norm(row)` of one row. -/
noncomputable def l2norm (row : List ℝ) : ℝ :=
  Real.sqrt (sumSq row)

/-- One row of `apply_normalization` with `normalize = True`: divide by the
norm floored at `1e-12` (`norms = np.maximum(norms, 1e-12)`). -/
noncomputable def normRow (row : List ℝ) : List ℝ :=
  row.map (fun x => x / max (l2norm row) 1e-12)

/-- `np.mean(outputs, axis=1)` on one `(seq, dim)` slice: element-wise sum
of the rows divided by the number of rows. -/
noncomputable def meanRows : List (List ℝ) → List ℝ
  | [] => []
  | r :: rs =>
      ((rs.foldl (fun acc v => acc.zipWith (· + ·) v) r).map
        (fun x => x / ((r :: rs).length : ℝ)))

/-- `apply_pooling` (build-embeddings.py 221-245): mean over the sequence
axis when `pooling == "mean"` and the output is 3-D; first sequence
position (CLS) when the output is 3-D but pooling is not `"mean"`;
identity on a 2-D output. -/
noncomputable def apply_pooling (outputs : NDArray) (pooling : String) : List (List ℝ) :=
  match outputs with
  | .three t => if pooling = "mean" then t.map meanRows else t.map (fun rows => rows.headD [])
  | .two m => m

/-- `apply_normalization` (build-embeddings.py 248-265): row-wise division
by `max(norm, 1e-12)` when `normalize`, identity otherwise. -/
noncomputable def apply_normalization (outputs : List (List ℝ)) (normalize : Bool) :
    List (List ℝ) :=
  if normalize then outputs.map normRow else outputs

/-- The emission pipeline of `main` (build-embeddings.py 379-384): pooling
first, then normalization. -/
noncomputable def emitted (outputs : NDArray) (pooling : String) (normalize : Bool) :
    List (List ℝ) :=
  apply_normalization (apply_pooling outputs pooling) normalize

/-- The order the spec forbids: normalize every per-position vector first,
then pool.  Used only as the comparison target of claim C1. -/
noncomputable def normalize_then_pool (t : List (List (List ℝ))) (pooling : String) :
    List (List ℝ) :=
  apply_pooling (NDArray.three (t.map (fun rows => rows.map normRow))) pooling

lemma sumSq_nonneg (row : List ℝ) : 0 ≤ sumSq row := by
  induction row with
  | nil => simp [sumSq]
  | cons x xs ih => simpa [sumSq] using add_nonneg (sq_nonneg x) ih

lemma sumSq_map_div (row : List ℝ) (c : ℝ) :
    sumSq (row.map (fun x => x / c)) = sumSq row / c ^ 2 := by
  induction row with
  | nil => simp [sumSq]
  | cons x xs ih =>
    simp only [List.map_cons, sumSq, ih, div_pow]
    rw [add_div]

lemma l2norm_34 : l2norm [(3 : ℝ), 4] = 5 := by
  unfold l2norm
  rw [show sumSq [(3 : ℝ), 4] = 5 ^ 2 by simp [sumSq]; norm_num]
  exact Real.sqrt_sq (by norm_num)

lemma l2norm_normRow (row : List ℝ) (h : (1e-12 : ℝ) ≤ l2norm row) :
    l2norm (normRow row) = 1 := by
  have hpos : 0 < l2norm row := lt_of_lt_of_le (by norm_num) h
  have hmax : max (l2norm row) 1e-12 = l2norm row := max_eq_left h
  have hS : 0 ≤ sumSq row := sumSq_nonneg row
  have hSpos : 0 < sumSq row := by
    have : 0 < Real.sqrt (sumSq row) := hpos
    exact Real.sqrt_pos.mp this
  unfold normRow
  rw [hmax]
  unfold l2norm
  rw [sumSq_map_div]
  rw [show Real.sqrt (sumSq row) ^ 2 = sumSq row from Real.sq_sqrt hS]
  rw [div_self (ne_of_gt hSpos)]
  exact Real.sqrt_one

/-! ## Claim C3: L2 normalization -/

/-- Claim C3 (amended): with `normalize = true` every row is divided by
`max(norm, 1e-12)`; every emitted vector whose raw Euclidean norm is at
least `1e-12` has norm exactly 1 (so within `1e-5` of 1); a row that is
all zero stays all zero without any division error; with
`normalize = false` the input is returned unchanged.  (Rows with a
non-zero norm below `1e-12` are merely scaled by `1e12` and need not come
out near unit norm — see the counterexample.) -/
theorem c3_normalization (m : List (List ℝ)) :
    apply_normalization m false = m
    ∧ apply_normalization m true = m.map normRow
    ∧ (∀ row ∈ m, (1e-12 : ℝ) ≤ l2norm row →
        l2norm (normRow row) = 1 ∧ |l2norm (normRow row) - 1| ≤ 1e-5)
    ∧ (∀ row ∈ m, (∀ x ∈ row, x = 0) → ∀ y ∈ normRow row, y = 0) := by
  refine ⟨rfl, rfl, ?_, ?_⟩
  · intro row _ h
    have h1 := l2norm_normRow row h
    exact ⟨h1, by rw [h1]; norm_num⟩
  · intro row _ hz y hy
    obtain ⟨x, hx, hxy⟩ := List.mem_map.mp hy
    rw [← hxy, hz x hx, zero_div]

/-- Claim C3 witness: the row `[3, 4]` has norm 5 ≥ 1e-12 and its
normalization has norm exactly 1. -/
theorem c3_normalization_witness :
    ((1e-12 : ℝ) ≤ l2norm [3, 4]) ∧ l2norm (normRow [3, 4]) = 1 := by
  have hle : (1e-12 : ℝ) ≤ l2norm [3, 4] := by rw [l2norm_34]; norm_num
  exact ⟨hle,
    ((c3_normalization [[3, 4]]).2.2.1 [3, 4] (List.mem_singleton.mpr rfl) hle).1⟩

/-- Claim C3 counterexample: the raw row `[1e-13]` is not all zero, yet
its emitted normalization is `[1e-13 / 1e-12] = [1/10]`, whose Euclidean
norm `1/10` is not within `1e-5` of 1.  The claim's "every emitted vector
has norm within 1e-5 of 1.0, except all-zero" is therefore false. -/
theorem c3_normalization_cex :
    apply_normalization [[(1e-13 : ℝ)]] true = [[(1e-13 : ℝ) / (1e-12 : ℝ)]]
    ∧ (1e-13 : ℝ) / (1e-12 : ℝ) = 1 / 10
    ∧ l2norm [(1 : ℝ) / 10] = 1 / 10
    ∧ ¬ (|(1 : ℝ) / 10 - 1| ≤ 1e-5)
    ∧ ¬ ((1e-13 : ℝ) = 0) := by
  have hl : l2norm [(1e-13 : ℝ)] = 1e-13 := by
    unfold l2norm
    rw [show sumSq [(1e-13 : ℝ)] = (1e-13 : ℝ) ^ 2 by simp [sumSq]]
    exact Real.sqrt_sq (by norm_num)
  have hmax : max (l2norm [(1e-13 : ℝ)]) 1e-12 = 1e-12 := by
    rw [hl]; exact max_eq_right (by norm_num)
  refine ⟨?_, by norm_num, ?_, ?_, by norm_num⟩
  · simp [apply_normalization, normRow, hmax]
  swap
  · intro hc
    rw [abs_sub_comm, abs_of_nonneg (by norm_num : (0 : ℝ) ≤ 1 - 1 / 10)] at hc
    norm_num at hc
  · unfold l2norm
    rw [show sumSq [(1 : ℝ) / 10] = ((1 : ℝ) / 10) ^ 2 by simp [sumSq]]
    exact Real.sqrt_sq (by norm_num)

/-! ## Claim C1: pooling precedes normalization -/

lemma meanRows_ex : meanRows [[(3 : ℝ), 4], [0, 0]] = [3 / 2, 2] := by
  simp [meanRows, List.zipWith]
  norm_num

lemma normRow_32 : normRow [(3 : ℝ) / 2, 2] = [3 / 5, 4 / 5] := by
  have hl : l2norm [(3 : ℝ) / 2, 2] = 5 / 2 := by
    unfold l2norm
    rw [show sumSq [(3 : ℝ) / 2, 2] = ((5 : ℝ) / 2) ^ 2 by simp [sumSq]; norm_num]
    exact Real.sqrt_sq (by norm_num)
  have hmax : max (l2norm [(3 : ℝ) / 2, 2]) 1e-12 = 5 / 2 := by
    rw [hl]; exact max_eq_left (by norm_num)
  simp [normRow, hmax]
  norm_num

lemma normRow_34 : normRow [(3 : ℝ), 4] = [3 / 5, 4 / 5] := by
  have hmax : max (l2norm [(3 : ℝ), 4]) 1e-12 = 5 := by
    rw [l2norm_34]; exact max_eq_left (by norm_num)
  simp [normRow, hmax]

lemma normRow_00 : normRow [(0 : ℝ), 0] = [0, 0] := by
  simp [normRow]

/-- Claim C1: the emitted embedding is `normalize(pool(x))`: on a 3-D
output with `pooling = "mean"` the sequence axis is averaged first; on a
3-D output with any other pooling the first sequence position is taken
first; a 2-D output is pooled by the identity; normalization always comes
second.  On the synthetic 3-axis output `[[[3,4],[0,0]]]`, pooling then
normalizing differs from normalizing then pooling. -/
theorem c1_pooling_before_normalization :
    (∀ (x : NDArray) (pooling : String) (normalize : Bool),
        emitted x pooling normalize = apply_normalization (apply_pooling x pooling) normalize)
    ∧ (∀ t, apply_pooling (NDArray.three t) "mean" = t.map meanRows)
    ∧ (∀ t (pooling : String), pooling ≠ "mean" →
        apply_pooling (NDArray.three t) pooling = t.map (fun rows => rows.headD []))
    ∧ (∀ m (pooling : String), apply_pooling (NDArray.two m) pooling = m)
    ∧ emitted (NDArray.three [[[3, 4], [0, 0]]]) "mean" true
        ≠ normalize_then_pool [[[3, 4], [0, 0]]] "mean" := by
  refine ⟨fun _ _ _ => rfl, fun t => by simp [apply_pooling],
    fun t pooling hp => by simp [apply_pooling, hp], fun m pooling => rfl, ?_⟩
  have hLHS : emitted (NDArray.three [[[(3 : ℝ), 4], [0, 0]]]) "mean" true
      = [[3 / 5, 4 / 5]] := by
    show apply_normalization (apply_pooling _ _) true = _
    simp [apply_pooling, apply_normalization, meanRows_ex, normRow_32]
  have hRHS : normalize_then_pool [[[(3 : ℝ), 4], [0, 0]]] "mean" = [[3 / 10, 2 / 5]] := by
    unfold normalize_then_pool
    simp [apply_pooling, normRow_34, normRow_00, meanRows, List.zipWith]
    norm_num
  rw [hLHS, hRHS]
  intro heq
  simp only [List.cons.injEq] at heq
  have h35 : (3 : ℝ) / 5 = 3 / 10 := heq.1.1
  norm_num at h35

/-- Claim C1 witness: for the non-mean pooling string `"none"` on a 3-D
output, the first sequence position is taken. -/
theorem c1_pooling_before_normalization_witness :
    (("none" : String) ≠ "mean")
    ∧ apply_pooling (NDArray.three [[[(1 : ℝ)], [2]]]) "none"
        = [[[(1 : ℝ)], [2]]].map (fun rows => rows.headD []) :=
  ⟨by decide,
    c1_pooling_before_normalization.2.2.1 [[[(1 : ℝ)], [2]]] "none" (by decide)⟩

/-! ## Claim C9: square-crop regions (build-embeddings.py 190-203) -/

/-- The crop box computed by `preprocess_image`: `square_size = min(width,
height)`; `top` starts at row 0 and centers horizontally; `center` centers
both ways; any other method performs no crop (`None` here). -/
def crop_region (method : String) (w h : ℕ) : Option (ℕ × ℕ × ℕ × ℕ) :=
  if method = "top" then
    some ((w - min w h) / 2, 0, (w - min w h) / 2 + min w h, 0 + min w h)
  else if method = "center" then
    some ((w - min w h) / 2, (h - min w h) / 2,
      (w - min w h) / 2 + min w h, (h - min w h) / 2 + min w h)
  else none

/-- Claim C9: the crop is deterministic with exactly the regions the spec
lists: for a 300×200 image both `center` and `top` give (50, 0, 250, 200);
for a 200×300 image `top` gives (0, 0, 200, 200) and `center` gives
(0, 50, 200, 250); `none` performs no crop. -/
theorem c9_crop_regions :
    crop_region "center" 300 200 = some (50, 0, 250, 200)
    ∧ crop_region "top" 300 200 = some (50, 0, 250, 200)
    ∧ crop_region "top" 200 300 = some (0, 0, 200, 200)
    ∧ crop_region "center" 200 300 = some (0, 50, 200, 250)
    ∧ crop_region "none" 300 200 = none := by
  refine ⟨?_, ?_, ?_, ?_, ?_⟩ <;> decide

/-! ## Binary Embedding File writer (build-embeddings.py 146-174) -/

/-- Little-endian 4-byte encoding of `struct.pack "<I"` (for the header
fields; counts and dimensions in use are far below `2^32`). -/
def u32le (n : ℕ) : List ℕ :=
  [n % 256, n / 256 % 256, n / 65536 % 256, n / 16777216 % 256]

/-- UTF-8 encoding of one scalar value (Python `str.encode("utf-8")`
byte layout). -/
def utf8Char (c : Char) : List ℕ :=
  if c.toNat < 128 then [c.toNat]
  else if c.toNat < 2048 then [192 + c.toNat / 64, 128 + c.toNat % 64]
  else if c.toNat < 65536 then
    [224 + c.toNat / 4096, 128 + c.toNat / 64 % 64, 128 + c.toNat % 64]
  else
    [240 + c.toNat / 262144, 128 + c.toNat / 4096 % 64,
      128 + c.toNat / 64 % 64, 128 + c.toNat % 64]

/-- UTF-8 encoding of an identifier. -/
def utf8Str (s : List Char) : List ℕ := catMap utf8Char s

/-- The `card_ids` list built by the skip loop of `write_binary_embeddings`
(lines 148-154): the keys, in dict order, whose UTF-8 encoding fits in the
1-byte length field. -/
def includedIds {α : Type} (es : List (List Char × List α)) : List (List Char) :=
  (es.map Prod.fst).filter (fun id => decide ((utf8Str id).length ≤ 255))

/-- Python dict lookup `embeddings[card_id]` on the association list
(first matching key; keys of a dict are distinct). -/
def lookupD {α : Type} (es : List (List Char × List α)) (k : List Char) : List α :=
  match es with
  | [] => []
  | q :: rest => if q.1 = k then q.2 else lookupD rest k

/-- `write_binary_embeddings` (lines 146-174).  `pack` stands for the
4-byte little-endian float32 encoding `struct.pack "<f"` of one value,
a parameter because float bit patterns live outside this model.  The file:
4-byte record count, 4-byte dimensionality, then per included id one
length byte, the UTF-8 bytes, and the packed values of its vector. -/
def write_binary_embeddings {α : Type} (pack : α → List ℕ)
    (es : List (List Char × List α)) (dim : ℕ) : List ℕ :=
  u32le (includedIds es).length ++ u32le dim ++
    catMap (fun id => ((utf8Str id).length :: utf8Str id) ++ catMap pack (lookupD es id))
      (includedIds es)

/-- Modelled from the spec (§4.6 serialization contract), for the
refinement claim C7: the same file described record-by-record from the
filtered (identifier, vector) pairs themselves. -/
def included_records {α : Type} (es : List (List Char × List α)) :
    List (List Char × List α) :=
  es.filter (fun q => decide ((utf8Str q.1).length ≤ 255))

/-- Modelled from the spec (§4.6): header (count, dimensionality), then
for each surviving record the length byte, identifier bytes and packed
vector values. -/
def binary_file_spec {α : Type} (pack : α → List ℕ)
    (es : List (List Char × List α)) (dim : ℕ) : List ℕ :=
  u32le (included_records es).length ++ u32le dim ++
    catMap (fun q => ((utf8Str q.1).length :: utf8Str q.1) ++ catMap pack q.2)
      (included_records es)

lemma includedIds_eq_map {α : Type} (es : List (List Char × List α)) :
    includedIds es = (included_records es).map Prod.fst := by
  induction es with
  | nil => rfl
  | cons q rest ih =>
    simp only [includedIds, included_records, List.map_cons, List.filter_cons] at *
    by_cases hq : (utf8Str q.1).length ≤ 255
    · simp [hq, ih]
    · simp [hq, ih]

lemma lookupD_nodup {α : Type} (es : List (List Char × List α))
    (hnd : (es.map Prod.fst).Nodup) (q : List Char × List α) (hq : q ∈ es) :
    lookupD es q.1 = q.2 := by
  induction es with
  | nil => simp at hq
  | cons q0 rest ih =>
    rcases List.mem_cons.mp hq with he | hm
    · subst he; simp [lookupD]
    · have hne : q0.1 ≠ q.1 := by
        intro he
        have : q.1 ∈ rest.map Prod.fst := List.mem_map_of_mem Prod.fst hm
        rw [← he] at this
        exact (List.nodup_cons.mp (by simpa using hnd)).1 this
      simp only [lookupD, if_neg hne]
      exact ih (List.nodup_cons.mp (by simpa using hnd)).2 hm

lemma catMap_map {α β γ : Type} (f : β → List γ) (g : α → β) (l : List α) :
    catMap f (l.map g) = catMap (fun x => f (g x)) l := by
  induction l with
  | nil => rfl
  | cons x xs ih => simp [catMap_cons, ih]

lemma catMap_length {α β : Type} (f : α → List β) (l : List α) :
    (catMap f l).length = (l.map (fun x => (f x).length)).sum := by
  induction l with
  | nil => rfl
  | cons x xs ih => simp [catMap_cons, ih]

lemma catMap_length_const {α β : Type} (f : α → List β) (k : ℕ)
    (h : ∀ x, (f x).length = k) (l : List α) : (catMap f l).length = k * l.length := by
  induction l with
  | nil => simp [catMap_nil]
  | cons x xs ih =>
    simp only [catMap_cons, List.length_append, ih, h x, List.length_cons]
    ring

lemma sum_map_split {α : Type} (f g : α → ℕ) (l : List α) :
    (l.map (fun x => f x + g x)).sum = (l.map f).sum + (l.map g).sum := by
  induction l with
  | nil => rfl
  | cons x xs ih => simp [ih]; omega

lemma sum_map_const {α : Type} (c : ℕ) (l : List α) :
    (l.map (fun _ => c)).sum = c * l.length := by
  induction l with
  | nil => rfl
  | cons x xs ih => simp [ih]; ring

/-! ## Claim C4: oversized identifiers are excluded, others included -/

/-- Claim C4: for every mapping handed to the binary writer, every
identifier whose UTF-8 encoding exceeds 255 bytes is excluded from the
record list entirely, every identifier of encoded length at most 255
bytes is included, and the 4-byte record count in the header counts
exactly the included identifiers. -/
theorem c4_oversized_ids_excluded {α : Type} (pack : α → List ℕ)
    (es : List (List Char × List α)) (dim : ℕ) :
    includedIds es
      = (es.map Prod.fst).filter (fun id => decide ((utf8Str id).length ≤ 255))
    ∧ (∀ id ∈ es.map Prod.fst, 255 < (utf8Str id).length → id ∉ includedIds es)
    ∧ (∀ id ∈ es.map Prod.fst, (utf8Str id).length ≤ 255 → id ∈ includedIds es)
    ∧ (write_binary_embeddings pack es dim).take 4 = u32le (includedIds es).length := by
  refine ⟨rfl, ?_, ?_, ?_⟩
  · intro id _ hlong hmem
    have h := (List.mem_filter.mp hmem).2
    simp only [decide_eq_true_eq] at h
    omega
  · intro id hmem hle
    exact List.mem_filter.mpr ⟨hmem, by simpa using hle⟩
  · unfold write_binary_embeddings
    rw [List.append_assoc,
      show (4 : ℕ) = (u32le (includedIds es).length).length from rfl, List.take_left]

set_option maxRecDepth 8192 in
/-- Claim C4 witness: with a 256-byte identifier and a 1-byte identifier
in the mapping, the long one is excluded and the short one included. -/
theorem c4_oversized_ids_excluded_witness :
    (255 < (utf8Str (List.replicate 256 'b')).length
      ∧ (List.replicate 256 'b')
          ∉ includedIds [(['a'], [(0 : ℕ)]), (List.replicate 256 'b', [1])])
    ∧ ((utf8Str ['a']).length ≤ 255
      ∧ ['a'] ∈ includedIds [(['a'], [(0 : ℕ)]), (List.replicate 256 'b', [1])]) :=
  ⟨⟨by decide,
      (c4_oversized_ids_excluded u32le [(['a'], [(0 : ℕ)]), (List.replicate 256 'b', [1])] 2).2.1
        (List.replicate 256 'b') (by decide) (by decide)⟩,
    ⟨by decide,
      (c4_oversized_ids_excluded u32le [(['a'], [(0 : ℕ)]), (List.replicate 256 'b', [1])] 2).2.2.1
        ['a'] (by decide) (by decide)⟩⟩


/-! ## Claim C7: binary file layout -/

lemma u32le_length (n : ℕ) : (u32le n).length = 4 := rfl

/-- The writer refines the spec's record-by-record description whenever
the mapping's keys are distinct (always true of a Python dict). -/
lemma writer_eq_spec {α : Type} (pack : α → List ℕ)
    (es : List (List Char × List α)) (dim : ℕ)
    (hnd : (es.map Prod.fst).Nodup) :
    write_binary_embeddings pack es dim = binary_file_spec pack es dim := by
  unfold write_binary_embeddings binary_file_spec
  rw [includedIds_eq_map, List.length_map, catMap_map]
  have h3 : catMap
      (fun x : List Char × List α =>
        ((utf8Str x.1).length :: utf8Str x.1) ++ catMap pack (lookupD es x.1))
      (included_records es)
    = catMap
      (fun q : List Char × List α =>
        ((utf8Str q.1).length :: utf8Str q.1) ++ catMap pack q.2)
      (included_records es) := by
    apply catMap_congr
    intro q hq
    rw [lookupD_nodup es hnd q (List.mem_of_mem_filter hq)]
  rw [h3]

/-- Claim C7: written from a mapping with distinct keys whose vectors all
have the configured length, the file is, little-endian throughout, the
4-byte record count, the 4-byte dimensionality, then — in mapping
iteration order — per record one length byte, the UTF-8 identifier bytes
and the `dim` packed 32-bit float values (4 bytes each, `4 * dim` bytes
per record). -/
theorem c7_binary_layout {α : Type} (pack : α → List ℕ)
    (es : List (List Char × List α)) (dim : ℕ)
    (hnd : (es.map Prod.fst).Nodup)
    (hpack : ∀ v, (pack v).length = 4)
    (hlen : ∀ q ∈ es, (q.2 : List α).length = dim) :
    write_binary_embeddings pack es dim = binary_file_spec pack es dim
    ∧ (∀ q ∈ included_records es, (catMap pack q.2).length = 4 * dim) := by
  refine ⟨writer_eq_spec pack es dim hnd, ?_⟩
  intro q hq
  rw [catMap_length_const pack 4 hpack, hlen q (List.mem_of_mem_filter hq)]

/-- Claim C7 witness: the writer and the spec layout agree on a concrete
two-entry mapping of dimension 2. -/
theorem c7_binary_layout_witness :
    write_binary_embeddings u32le [(['a'], [(10 : ℕ), 20]), (['b'], [30, 40])] 2
      = binary_file_spec u32le [(['a'], [(10 : ℕ), 20]), (['b'], [30, 40])] 2 :=
  (c7_binary_layout u32le [(['a'], [(10 : ℕ), 20]), (['b'], [30, 40])] 2
    (by decide) (fun _ => rfl) (by decide)).1

/-! ## Claim C10: no vector-length validation; header consistency -/

lemma rec_catMap_length {α : Type} (pack : α → List ℕ)
    (hpack : ∀ v, (pack v).length = 4) (S : List (List Char × List α)) :
    (catMap (fun q => ((utf8Str q.1).length :: utf8Str q.1) ++ catMap pack q.2) S).length
      = (S.map (fun q => 1 + (utf8Str q.1).length + 4 * q.2.length)).sum := by
  induction S with
  | nil => rfl
  | cons q rest ih =>
    simp only [catMap_cons, List.length_append, List.length_cons, ih,
      List.map_cons, List.sum_cons, catMap_length_const pack 4 hpack]
    omega

lemma rec_sum_split {α : Type} (S : List (List Char × List α)) (dim : ℕ) :
    (S.map (fun q => 1 + (utf8Str q.1).length + 4 * q.2.length)).sum
        = (S.map (fun q => 1 + (utf8Str q.1).length)).sum
          + 4 * (S.map (fun q => q.2.length)).sum
    ∧ (S.map (fun q => 1 + (utf8Str q.1).length + 4 * dim)).sum
        = (S.map (fun q => 1 + (utf8Str q.1).length)).sum + 4 * (dim * S.length) := by
  induction S with
  | nil => simp
  | cons q rest ih =>
    simp only [List.map_cons, List.sum_cons, List.length_cons, ih.1, ih.2]
    constructor <;> ring

/-- Claim C10 (amended): the writer validates nothing about vector
lengths — each included record carries exactly `len(vector)` packed 4-byte
values while the header always declares the configured dimensionality, so
the file length is `8 + Σ (1 + utf8len(id) + 4·len(vector))` over the
included records; this equals the header-consistent total
`8 + Σ (1 + utf8len(id) + 4·dim)` if and only if the total number of
stored values is `dim` times the record count — which holds in particular
when every included vector has exactly `dim` elements, but also under
compensating wrong lengths, so the original "if and only if every included
vector has exactly dim elements" fails (see the counterexample). -/
theorem c10_length_consistency {α : Type} (pack : α → List ℕ)
    (es : List (List Char × List α)) (dim : ℕ)
    (hnd : (es.map Prod.fst).Nodup)
    (hpack : ∀ v, (pack v).length = 4) :
    (write_binary_embeddings pack es dim).length
      = 8 + ((included_records es).map
          (fun q => 1 + (utf8Str q.1).length + 4 * q.2.length)).sum
    ∧ ((write_binary_embeddings pack es dim).length
          = 8 + ((included_records es).map
              (fun q => 1 + (utf8Str q.1).length + 4 * dim)).sum
        ↔ ((included_records es).map (fun q => q.2.length)).sum
            = dim * (included_records es).length) := by
  have h1 : (write_binary_embeddings pack es dim).length
      = 8 + ((included_records es).map
          (fun q => 1 + (utf8Str q.1).length + 4 * q.2.length)).sum := by
    rw [writer_eq_spec pack es dim hnd]
    unfold binary_file_spec
    simp only [List.length_append, u32le_length]
    rw [rec_catMap_length pack hpack]
  refine ⟨h1, ?_⟩
  rw [h1, (rec_sum_split (included_records es) dim).1,
    (rec_sum_split (included_records es) dim).2]
  omega

/-- Claim C10 witness: on a well-formed two-record mapping of dimension 2,
the file length is the stated total. -/
theorem c10_length_consistency_witness :
    (write_binary_embeddings u32le [(['a'], [(5 : ℕ), 6]), (['b'], [7, 8])] 2).length
      = 8 + ((included_records [(['a'], [(5 : ℕ), 6]), (['b'], [7, 8])]).map
          (fun q => 1 + (utf8Str q.1).length + 4 * q.2.length)).sum :=
  (c10_length_consistency u32le [(['a'], [(5 : ℕ), 6]), (['b'], [7, 8])] 2
    (by decide) (fun _ => rfl)).1

/-- Claim C10 counterexample: with vectors of lengths 1 and 3 under a
declared dimensionality of 2, the file length equals the
header-consistent total (28 bytes), yet not every included vector has 2
elements — the claimed "if and only if" fails in its only-if direction. -/
theorem c10_length_consistency_cex :
    (write_binary_embeddings u32le [(['a'], [(0 : ℕ)]), (['b'], [0, 0, 0])] 2).length
      = 8 + ((included_records [(['a'], [(0 : ℕ)]), (['b'], [0, 0, 0])]).map
          (fun q => 1 + (utf8Str q.1).length + 4 * 2)).sum
    ∧ ¬ (∀ q ∈ included_records [(['a'], [(0 : ℕ)]), (['b'], [0, 0, 0])],
          (q.2 : List ℕ).length = 2) :=
  ⟨by decide, by decide⟩

/-! ## Batch engine (build-embeddings.py main, lines 276-406) -/

/-- Python dict assignment `embeddings[card_id] = vector`: replace in place
if the key exists, else append. -/
def dictSet {β : Type} (m : List (List Char × β)) (k : List Char) (v : β) :
    List (List Char × β) :=
  match m with
  | [] => [(k, v)]
  | q :: rest => if q.1 = k then (k, v) :: rest else q :: dictSet rest k v

/-- Option-valued key lookup, used to state the checkpoint invariants. -/
def lookupOpt {β : Type} (m : List (List Char × β)) (k : List Char) : Option β :=
  match m with
  | [] => none
  | q :: rest => if q.1 = k then some q.2 else lookupOpt rest k

/-- The per-batch preprocessing loop (lines 353-362): items whose image
loads, paired with their tensors; failures are dropped and counted.  The
preprocessing outcome `pre` (image decode and transform) is a parameter:
it reads the filesystem. -/
def validOf {ι τ : Type} (pre : ι → Option τ) (batch : List (List Char × ι)) :
    List (List Char × τ) :=
  batch.filterMap (fun q => (pre q.2).map (fun t => (q.1, t)))

/-- One iteration of the processing loop (lines 349-398): preprocess every
item, skip the batch if nothing survived, otherwise run the (external)
inference once, pool and normalize, and store row `j` under the `j`-th
valid card id; if the inference call raises, count the whole batch as
failed and store nothing. -/
noncomputable def stepBatch {ι τ : Type} (pre : ι → Option τ)
    (infer : List τ → Except Unit NDArray) (pooling : String) (normalize : Bool)
    (st : List (List Char × List ℝ) × ℕ) (batch : List (List Char × ι)) :
    List (List Char × List ℝ) × ℕ :=
  if (validOf pre batch).isEmpty then
    (st.1, st.2 + (batch.length - (validOf pre batch).length))
  else
    match infer ((validOf pre batch).map Prod.snd) with
    | .error _ =>
        (st.1, st.2 + (batch.length - (validOf pre batch).length)
          + (validOf pre batch).length)
    | .ok out =>
        ((((validOf pre batch).map Prod.fst).zip (emitted out pooling normalize)).foldl
            (fun m q => dictSet m q.1 q.2) st.1,
          st.2 + (batch.length - (validOf pre batch).length))

/-- Batch slicing `to_process[i : i + batch_size]` (line 350), with
explicit fuel; for a positive batch size the fuel `l.length` suffices. -/
def chunksGo {γ : Type} (b : ℕ) : ℕ → List γ → List (List γ)
  | _, [] => []
  | 0, _ :: _ => []
  | fuel + 1, x :: xs => (x :: xs).take b :: chunksGo b fuel ((x :: xs).drop b)

/-- The batches of the processing loop. -/
def chunks {γ : Type} (b : ℕ) (l : List γ) : List (List γ) := chunksGo b l.length l

/-- The whole processing loop over a work list, starting from the loaded
checkpoint and zero failures. -/
noncomputable def runBatches {ι τ : Type} (pre : ι → Option τ)
    (infer : List τ → Except Unit NDArray) (pooling : String) (normalize : Bool)
    (b : ℕ) (tp : List (List Char × ι)) (emb0 : List (List Char × List ℝ)) :
    List (List Char × List ℝ) × ℕ :=
  (chunks b tp).foldl (stepBatch pre infer pooling normalize) (emb0, 0)

/-- The work-list computation of `main` (lines 299-306): all scanned items
whose identifier is not already a checkpoint key. -/
def toProcess {ι : Type} (all : List (List Char × ι))
    (emb : List (List Char × List ℝ)) : List (List Char × ι) :=
  all.filter (fun q => decide (q.1 ∉ emb.map Prod.fst))

/-- `main`'s processing phase: compute the work list from the loaded
checkpoint, then run the batch loop. -/
noncomputable def mainRun {ι τ : Type} (pre : ι → Option τ)
    (infer : List τ → Except Unit NDArray) (pooling : String) (normalize : Bool)
    (b : ℕ) (all : List (List Char × ι)) (emb0 : List (List Char × List ℝ)) :
    List (List Char × List ℝ) × ℕ :=
  runBatches pre infer pooling normalize b (toProcess all emb0) emb0

/-- `scan_card_images` (lines 114-125) on the (already extension-filtered)
file stems: each stem decodes to a card id; distinct files can yield the
same identifier. -/
def scan_card_images {ι : Type} (stems : List (List Char × ι)) :
    List (List Char × ι) :=
  stems.map (fun q => (filename_to_card_id q.1, q.2))

lemma validOf_length_le {ι τ : Type} (pre : ι → Option τ)
    (batch : List (List Char × ι)) : (validOf pre batch).length ≤ batch.length :=
  List.length_filterMap_le _ _

lemma validOf_fst_mem {ι τ : Type} (pre : ι → Option τ)
    (batch : List (List Char × ι)) (k : List Char)
    (h : k ∈ (validOf pre batch).map Prod.fst) : k ∈ batch.map Prod.fst := by
  induction batch with
  | nil => simp [validOf] at h
  | cons q rest ih =>
    rw [validOf, List.filterMap_cons] at h
    simp only [List.map_cons, List.mem_cons]
    cases hq : pre q.2 with
    | none =>
      rw [hq] at h
      exact Or.inr (ih h)
    | some t =>
      rw [hq] at h
      simp only [Option.map_some', List.map_cons, List.mem_cons] at h
      rcases h with he | hm
      · exact Or.inl he
      · exact Or.inr (ih hm)

lemma validOf_of_some {ι τ : Type} (pre : ι → Option τ)
    (batch : List (List Char × ι)) (h : ∀ q ∈ batch, (pre q.2).isSome = true) :
    (validOf pre batch).map Prod.fst = batch.map Prod.fst
    ∧ (validOf pre batch).length = batch.length := by
  induction batch with
  | nil => simp [validOf]
  | cons q rest ih =>
    obtain ⟨t, ht⟩ := Option.isSome_iff_exists.mp (h q (List.mem_cons_self _ _))
    obtain ⟨ih1, ih2⟩ := ih (fun q' hq' => h q' (List.mem_cons_of_mem _ hq'))
    rw [validOf, List.filterMap_cons, ht]
    simp only [Option.map_some', List.map_cons, List.length_cons]
    rw [show List.filterMap (fun q => (pre q.2).map (fun t => (q.1, t))) rest
        = validOf pre rest from rfl, ih1, ih2]
    exact ⟨rfl, rfl⟩

lemma dictSet_keys_iff {β : Type} (m : List (List Char × β)) (k0 k : List Char) (v : β) :
    k ∈ (dictSet m k0 v).map Prod.fst ↔ (k ∈ m.map Prod.fst ∨ k = k0) := by
  induction m with
  | nil => simp [dictSet]
  | cons q rest ih =>
    by_cases hq : q.1 = k0
    · simp only [dictSet, if_pos hq, List.map_cons, List.mem_cons]
      rw [hq]
      tauto
    · simp only [dictSet, if_neg hq, List.map_cons, List.mem_cons, ih]
      tauto

lemma dictSet_lookupOpt_ne {β : Type} (m : List (List Char × β)) (k0 k : List Char)
    (v : β) (h : k ≠ k0) : lookupOpt (dictSet m k0 v) k = lookupOpt m k := by
  have hne : ¬ (k0 = k) := fun he => h he.symm
  induction m with
  | nil =>
    show lookupOpt [(k0, v)] k = lookupOpt [] k
    unfold lookupOpt
    rw [if_neg hne]
    rfl
  | cons q rest ih =>
    by_cases hq : q.1 = k0
    · simp only [dictSet, if_pos hq, lookupOpt]
      rw [if_neg hne, if_neg (by rw [hq]; exact hne)]
    · simp only [dictSet, if_neg hq, lookupOpt]
      by_cases hk : q.1 = k
      · rw [if_pos hk, if_pos hk]
      · rw [if_neg hk, if_neg hk, ih]

lemma foldl_dictSet_keys {β : Type} (pairs : List (List Char × β)) :
    ∀ (m : List (List Char × β)) (k : List Char),
      k ∈ (pairs.foldl (fun m q => dictSet m q.1 q.2) m).map Prod.fst
        ↔ (k ∈ m.map Prod.fst ∨ k ∈ pairs.map Prod.fst) := by
  induction pairs with
  | nil =>
    intro m k
    simp only [List.foldl_nil, List.map_nil, List.mem_nil_iff, or_false]
  | cons q rest ih =>
    intro m k
    simp only [List.foldl_cons, ih, dictSet_keys_iff, List.map_cons, List.mem_cons]
    tauto

lemma foldl_dictSet_untouched {β : Type} (pairs : List (List Char × β)) :
    ∀ (m : List (List Char × β)) (k : List Char), k ∉ pairs.map Prod.fst →
      lookupOpt (pairs.foldl (fun m q => dictSet m q.1 q.2) m) k = lookupOpt m k := by
  induction pairs with
  | nil => intro m k _; rfl
  | cons q rest ih =>
    intro m k hk
    simp only [List.map_cons, List.mem_cons] at hk
    push_neg at hk
    simp only [List.foldl_cons]
    rw [ih _ k hk.2, dictSet_lookupOpt_ne _ _ _ _ hk.1]

lemma chunksGo_sub {γ : Type} (b : ℕ) :
    ∀ (fuel : ℕ) (l : List γ) (c : List γ), c ∈ chunksGo b fuel l → ∀ x ∈ c, x ∈ l := by
  intro fuel
  induction fuel with
  | zero =>
    intro l c hc
    cases l <;> simp [chunksGo] at hc
  | succ f ih =>
    intro l c hc x hx
    cases l with
    | nil => simp [chunksGo] at hc
    | cons y ys =>
      simp only [chunksGo, List.mem_cons] at hc
      rcases hc with he | hm
      · exact List.take_subset _ _ (he ▸ hx)
      · exact List.drop_subset _ _ (ih _ c hm x hx)

lemma chunks_sub {γ : Type} (b : ℕ) (l : List γ) (c : List γ)
    (hc : c ∈ chunks b l) : ∀ x ∈ c, x ∈ l :=
  chunksGo_sub b l.length l c hc

lemma chunksGo_flatten {γ : Type} (b : ℕ) (hb : 0 < b) :
    ∀ (fuel : ℕ) (l : List γ), l.length ≤ fuel → (chunksGo b fuel l).flatten = l := by
  intro fuel
  induction fuel with
  | zero =>
    intro l hl
    have hnil : l = [] := List.length_eq_zero.mp (Nat.le_zero.mp hl)
    subst hnil
    simp [chunksGo]
  | succ f ih =>
    intro l hl
    cases l with
    | nil => simp [chunksGo]
    | cons y ys =>
      simp only [chunksGo, List.flatten_cons]
      rw [ih ((y :: ys).drop b) (by
        simp only [List.length_drop, List.length_cons]
        simp only [List.length_cons] at hl
        omega)]
      exact List.take_append_drop _ _

lemma chunks_flatten {γ : Type} (b : ℕ) (hb : 0 < b) (l : List γ) :
    (chunks b l).flatten = l :=
  chunksGo_flatten b hb l.length l (Nat.le_refl _)

lemma zip_fst_mem {γ δ : Type} (a : List γ) (b : List δ) (k : γ)
    (h : k ∈ (a.zip b).map Prod.fst) : k ∈ a := by
  obtain ⟨p, hp, hk⟩ := List.mem_map.mp h
  exact hk ▸ (List.of_mem_zip hp).1

lemma stepBatch_keys_mono {ι τ : Type} (pre : ι → Option τ)
    (infer : List τ → Except Unit NDArray) (pooling : String) (normalize : Bool)
    (st : List (List Char × List ℝ) × ℕ) (batch : List (List Char × ι)) (k : List Char)
    (h : k ∈ st.1.map Prod.fst) :
    k ∈ (stepBatch pre infer pooling normalize st batch).1.map Prod.fst := by
  unfold stepBatch
  by_cases hv : (validOf pre batch).isEmpty = true
  · rw [if_pos hv]; exact h
  · rw [if_neg hv]
    cases hr : infer ((validOf pre batch).map Prod.snd) with
    | error e => exact h
    | ok out => exact (foldl_dictSet_keys _ _ _).mpr (Or.inl h)

lemma stepBatch_keys_bound {ι τ : Type} (pre : ι → Option τ)
    (infer : List τ → Except Unit NDArray) (pooling : String) (normalize : Bool)
    (st : List (List Char × List ℝ) × ℕ) (batch : List (List Char × ι)) (k : List Char)
    (h : k ∈ (stepBatch pre infer pooling normalize st batch).1.map Prod.fst) :
    k ∈ st.1.map Prod.fst ∨ k ∈ batch.map Prod.fst := by
  unfold stepBatch at h
  by_cases hv : (validOf pre batch).isEmpty = true
  · rw [if_pos hv] at h; exact Or.inl h
  · rw [if_neg hv] at h
    cases hr : infer ((validOf pre batch).map Prod.snd) with
    | error e => rw [hr] at h; exact Or.inl h
    | ok out =>
      rw [hr] at h
      rcases (foldl_dictSet_keys _ _ _).mp h with h' | h'
      · exact Or.inl h'
      · exact Or.inr (validOf_fst_mem pre batch k (zip_fst_mem _ _ k h'))

lemma stepBatch_untouched {ι τ : Type} (pre : ι → Option τ)
    (infer : List τ → Except Unit NDArray) (pooling : String) (normalize : Bool)
    (st : List (List Char × List ℝ) × ℕ) (batch : List (List Char × ι)) (k : List Char)
    (h : k ∉ batch.map Prod.fst) :
    lookupOpt (stepBatch pre infer pooling normalize st batch).1 k = lookupOpt st.1 k := by
  unfold stepBatch
  by_cases hv : (validOf pre batch).isEmpty = true
  · rw [if_pos hv]
  · rw [if_neg hv]
    cases hr : infer ((validOf pre batch).map Prod.snd) with
    | error e => rfl
    | ok out =>
      refine foldl_dictSet_untouched _ _ k (fun hk => h ?_)
      exact validOf_fst_mem pre batch k (zip_fst_mem _ _ k hk)

/-! ## Claim C5: a failing inference call skips the whole batch -/

/-- Claim C5: if the inference call on a batch raises, the whole batch is
counted as failed (the per-item preprocess failures plus all valid items,
together the batch's length) and the checkpoint mapping is returned
exactly as it was — no partial-batch results. -/
theorem c5_inference_failure_skips_batch {ι τ : Type} (pre : ι → Option τ)
    (infer : List τ → Except Unit NDArray) (pooling : String) (normalize : Bool)
    (st : List (List Char × List ℝ) × ℕ) (batch : List (List Char × ι))
    (hne : validOf pre batch ≠ [])
    (herr : ∃ e, infer ((validOf pre batch).map Prod.snd) = Except.error e) :
    (stepBatch pre infer pooling normalize st batch).1 = st.1
    ∧ (stepBatch pre infer pooling normalize st batch).2 = st.2 + batch.length := by
  obtain ⟨e, he⟩ := herr
  have hv : (validOf pre batch).isEmpty = false := List.isEmpty_eq_false.mpr hne
  have hle := validOf_length_le pre batch
  have hpos : 0 < (validOf pre batch).length := List.length_pos.mpr hne
  unfold stepBatch
  rw [if_neg (by simp [hv]), he]
  refine ⟨rfl, ?_⟩
  show st.2 + (batch.length - (validOf pre batch).length) + (validOf pre batch).length
      = st.2 + batch.length
  omega

/-- Claim C5 witness: a one-item batch whose inference call fails leaves
the empty checkpoint mapping empty and counts one failure. -/
theorem c5_inference_failure_skips_batch_witness :
    validOf (fun _ : ℕ => some ()) [(['a'], 0)] ≠ []
    ∧ (stepBatch (fun _ : ℕ => some ()) (fun _ => Except.error ()) "mean" true
        (([] : List (List Char × List ℝ)), 0) [(['a'], 0)]).1
        = ([] : List (List Char × List ℝ))
    ∧ (stepBatch (fun _ : ℕ => some ()) (fun _ => Except.error ()) "mean" true
        (([] : List (List Char × List ℝ)), 0) [(['a'], 0)]).2 = 0 + 1 :=
  ⟨by decide,
    (c5_inference_failure_skips_batch (fun _ : ℕ => some ())
      (fun _ => Except.error ()) "mean" true (([] : List (List Char × List ℝ)), 0)
      [(['a'], 0)] (by decide) ⟨(), rfl⟩).1,
    (c5_inference_failure_skips_batch (fun _ : ℕ => some ())
      (fun _ => Except.error ()) "mean" true (([] : List (List Char × List ℝ)), 0)
      [(['a'], 0)] (by decide) ⟨(), rfl⟩).2⟩

/-! ## Claim C6: checkpoint monotonicity -/

lemma runFold_untouched {ι τ : Type} (pre : ι → Option τ)
    (infer : List τ → Except Unit NDArray) (pooling : String) (normalize : Bool)
    (cs : List (List (List Char × ι))) :
    ∀ (st : List (List Char × List ℝ) × ℕ) (k : List Char),
      (∀ c ∈ cs, k ∉ c.map Prod.fst) →
      lookupOpt (cs.foldl (stepBatch pre infer pooling normalize) st).1 k
        = lookupOpt st.1 k := by
  induction cs with
  | nil => intro st k _; rfl
  | cons c rest ih =>
    intro st k h
    simp only [List.foldl_cons]
    rw [ih _ k (fun c' hc' => h c' (List.mem_cons_of_mem _ hc')),
      stepBatch_untouched pre infer pooling normalize st c k (h c (List.mem_cons_self _ _))]

lemma runFold_keys_bound {ι τ : Type} (pre : ι → Option τ)
    (infer : List τ → Except Unit NDArray) (pooling : String) (normalize : Bool)
    (cs : List (List (List Char × ι))) :
    ∀ (st : List (List Char × List ℝ) × ℕ) (k : List Char),
      k ∈ (cs.foldl (stepBatch pre infer pooling normalize) st).1.map Prod.fst →
      k ∈ st.1.map Prod.fst ∨ ∃ c ∈ cs, k ∈ c.map Prod.fst := by
  induction cs with
  | nil => intro st k h; exact Or.inl h
  | cons c rest ih =>
    intro st k h
    simp only [List.foldl_cons] at h
    rcases ih _ k h with h' | ⟨c', hc', hk⟩
    · rcases stepBatch_keys_bound pre infer pooling normalize st c k h' with h'' | h''
      · exact Or.inl h''
      · exact Or.inr ⟨c, List.mem_cons_self _ _, h''⟩
    · exact Or.inr ⟨c', List.mem_cons_of_mem _ hc', hk⟩

lemma flatten_fst_mem {ι : Type} (cs : List (List (List Char × ι))) (k : List Char) :
    k ∈ cs.flatten.map Prod.fst ↔ ∃ c ∈ cs, k ∈ c.map Prod.fst := by
  constructor
  · intro h
    obtain ⟨q, hq, hk⟩ := List.mem_map.mp h
    obtain ⟨c, hc, hqc⟩ := List.mem_flatten.mp hq
    exact ⟨c, hc, hk ▸ List.mem_map_of_mem Prod.fst hqc⟩
  · rintro ⟨c, hc, hk⟩
    obtain ⟨q, hq, hqk⟩ := List.mem_map.mp hk
    exact hqk ▸ List.mem_map_of_mem Prod.fst (List.mem_flatten.mpr ⟨c, hc, hq⟩)

lemma toProcess_disjoint {ι : Type} (all : List (List Char × ι))
    (emb0 : List (List Char × List ℝ)) :
    ∀ q ∈ toProcess all emb0, q.1 ∉ emb0.map Prod.fst := by
  intro q hq
  have := List.of_mem_filter hq
  simpa using this

/-- Claim C6 (amended): the checkpoint mapping is mutated monotonically in
these senses: (i) no step of the loop ever removes a key; (ii) an
identifier present in the loaded checkpoint is never overwritten during
the run, because the work list excludes it; (iii) when the scanned
identifiers of the work list are pairwise distinct, any (identifier,
vector) entry present after a prefix of the batches survives unchanged to
the end of the run.  When the scan yields the same identifier from more
than one file, however, the later occurrence overwrites the earlier
vector (see the counterexample), so the original claim fails. -/
theorem c6_checkpoint_monotone {ι τ : Type} (pre : ι → Option τ)
    (infer : List τ → Except Unit NDArray) (pooling : String) (normalize : Bool) :
    (∀ (st : List (List Char × List ℝ) × ℕ) (batch : List (List Char × ι)) k,
        k ∈ st.1.map Prod.fst →
        k ∈ (stepBatch pre infer pooling normalize st batch).1.map Prod.fst)
    ∧ (∀ (b : ℕ) (all : List (List Char × ι)) emb0 k, k ∈ emb0.map Prod.fst →
        lookupOpt (mainRun pre infer pooling normalize b all emb0).1 k
          = lookupOpt emb0 k)
    ∧ (∀ (b : ℕ) (all : List (List Char × ι)) emb0, 0 < b →
        ((toProcess all emb0).map Prod.fst).Nodup →
        ∀ cs₁ cs₂, chunks b (toProcess all emb0) = cs₁ ++ cs₂ →
        ∀ k v,
          lookupOpt (cs₁.foldl (stepBatch pre infer pooling normalize) (emb0, 0)).1 k
            = some v →
          lookupOpt (mainRun pre infer pooling normalize b all emb0).1 k = some v) := by
  refine ⟨stepBatch_keys_mono pre infer pooling normalize, ?_, ?_⟩
  · intro b all emb0 k hk
    unfold mainRun runBatches
    rw [runFold_untouched pre infer pooling normalize _ _ k ?h]
    case h =>
      intro c hc hkc
      obtain ⟨q, hq, hqk⟩ := List.mem_map.mp hkc
      exact toProcess_disjoint all emb0 q (chunks_sub b _ c hc q hq) (hqk ▸ hk)
  · intro b all emb0 hb hnd cs₁ cs₂ hsplit k v hk
    unfold mainRun runBatches
    rw [hsplit, List.foldl_append]
    have hkeys : k ∈ (cs₁.foldl (stepBatch pre infer pooling normalize) (emb0, 0)).1.map
        Prod.fst := by
      obtain ⟨w, hw⟩ : ∃ w, lookupOpt
          (cs₁.foldl (stepBatch pre infer pooling normalize) (emb0, 0)).1 k = some w :=
        ⟨v, hk⟩
      clear hk
      generalize (cs₁.foldl (stepBatch pre infer pooling normalize) (emb0, 0)).1 = m at hw ⊢
      induction m with
      | nil => simp [lookupOpt] at hw
      | cons q rest ih =>
        by_cases hq : q.1 = k
        · simp [hq]
        · rw [lookupOpt, if_neg hq] at hw
          simp only [List.map_cons, List.mem_cons]
          exact Or.inr (ih hw)
    rw [runFold_untouched pre infer pooling normalize cs₂ _ k ?h2]
    · exact hk
    case h2 =>
      intro c hc hkc
      have hjoin : (chunks b (toProcess all emb0)).flatten = toProcess all emb0 :=
        chunks_flatten b hb _
      rw [hsplit, List.flatten_append] at hjoin
      have hnd2 : (cs₁.flatten.map Prod.fst ++ cs₂.flatten.map Prod.fst).Nodup := by
        rw [← List.map_append, hjoin]
        exact hnd
      have hdisj := List.disjoint_of_nodup_append hnd2
      rcases runFold_keys_bound pre infer pooling normalize cs₁ (emb0, 0) k hkeys with
        h1 | ⟨c', hc', hk1⟩
      · obtain ⟨q, hq, hqk⟩ := List.mem_map.mp hkc
        have hqtp : q ∈ toProcess all emb0 :=
          chunks_sub b _ c (by rw [hsplit]; exact List.mem_append_right _ hc) q hq
        exact toProcess_disjoint all emb0 q hqtp (hqk.symm ▸ h1)
      · exact hdisj ((flatten_fst_mem cs₁ k).mpr ⟨c', hc', hk1⟩)
          ((flatten_fst_mem cs₂ k).mpr ⟨c, hc, hkc⟩)

/-- Claim C6 counterexample: a scan that yields the identifier `a` from
two different files (same stem, two extensions).  The run's merge writes
`a ↦ [1]` for the first file and then overwrites it with the second
file's vector `[2]`, so an identifier already present in the mapping IS
overwritten with a different vector — the claim's "including runs whose
filesystem scan yields the same identifier from more than one file" is
false. -/
theorem c6_checkpoint_monotone_cex :
    (mainRun (fun _ : ℕ => some ()) (fun _ => Except.ok (NDArray.two [[1], [2]]))
        "none" false 2 (scan_card_images [(['a'], 0), (['a'], 1)]) []).1
      = [(['a'], [(2 : ℝ)])]
    ∧ dictSet ([] : List (List Char × List ℝ)) ['a'] [1] = [(['a'], [(1 : ℝ)])]
    ∧ dictSet [(['a'], [(1 : ℝ)])] ['a'] [2] = [(['a'], [(2 : ℝ)])]
    ∧ lookupOpt [(['a'], [(1 : ℝ)])] ['a'] = some [1]
    ∧ ¬ ([(1 : ℝ)] = [2]) :=
  ⟨rfl, rfl, rfl, rfl, by norm_num⟩

/-- Claim C6 witness: with distinct scanned identifiers and a
pre-populated checkpoint entry `c ↦ [5]`, the run leaves that entry
exactly as loaded. -/
theorem c6_checkpoint_monotone_witness :
    ((['c'] : List Char) ∈ ([(['c'], [(5 : ℝ)])] : List (List Char × List ℝ)).map Prod.fst)
    ∧ lookupOpt (mainRun (fun _ : ℕ => some ())
        (fun ts => Except.ok (NDArray.two (ts.map (fun _ => [0])))) "none" false 16
        [(['a'], 0), (['b'], 1)] [(['c'], [(5 : ℝ)])]).1 ['c']
      = lookupOpt [(['c'], [(5 : ℝ)])] ['c']
    ∧ lookupOpt (mainRun (fun _ : ℕ => some ())
        (fun ts => Except.ok (NDArray.two (ts.map (fun _ => [0])))) "none" false 16
        [(['a'], 0), (['b'], 1)] [(['c'], [(5 : ℝ)])]).1 ['c'] = some [5] := by
  have hmem : (['c'] : List Char)
      ∈ ([(['c'], [(5 : ℝ)])] : List (List Char × List ℝ)).map Prod.fst := by
    simp
  have hB := (c6_checkpoint_monotone (fun _ : ℕ => some ())
      (fun ts => Except.ok (NDArray.two (ts.map (fun _ => [0])))) "none" false).2.1
      16 [(['a'], 0), (['b'], 1)] [(['c'], [(5 : ℝ)])] ['c'] hmem
  have hC := (c6_checkpoint_monotone (fun _ : ℕ => some ())
      (fun ts => Except.ok (NDArray.two (ts.map (fun _ => [0])))) "none" false).2.2
      16 [(['a'], 0), (['b'], 1)] [(['c'], [(5 : ℝ)])] (by norm_num) (by decide)
      (chunks 16 (toProcess [(['a'], 0), (['b'], 1)] [(['c'], [(5 : ℝ)])])) []
      (by rw [List.append_nil]) ['c'] [5]
      (by
        show lookupOpt (mainRun (fun _ : ℕ => some ())
          (fun ts => Except.ok (NDArray.two (ts.map (fun _ => [0])))) "none" false 16
          [(['a'], 0), (['b'], 1)] [(['c'], [(5 : ℝ)])]).1 ['c'] = some [5]
        rw [hB]
        rfl)
  exact ⟨hmem, hB, hC⟩

/-! ## Claim C8: resumability -/

lemma stepBatch_keys_success {ι τ : Type} (pre : ι → Option τ)
    (infer : List τ → Except Unit NDArray) (pooling : String) (normalize : Bool)
    (batch : List (List Char × ι))
    (hpre : ∀ q ∈ batch, (pre q.2).isSome = true)
    (hinfer : ∀ ts : List τ, ts ≠ [] → ∃ out, infer ts = Except.ok out
      ∧ (emitted out pooling normalize).length = ts.length)
    (st : List (List Char × List ℝ) × ℕ) (k : List Char) :
    k ∈ (stepBatch pre infer pooling normalize st batch).1.map Prod.fst
      ↔ (k ∈ st.1.map Prod.fst ∨ k ∈ batch.map Prod.fst) := by
  obtain ⟨hfst, hlen⟩ := validOf_of_some pre batch hpre
  by_cases hbe : batch = []
  · subst hbe
    have hv : (validOf pre ([] : List (List Char × ι))).isEmpty = true := by
      simp [validOf]
    unfold stepBatch
    rw [if_pos hv]
    simp
  · have hvne : validOf pre batch ≠ [] := by
      intro he
      rw [he] at hlen
      exact hbe (List.length_eq_zero.mp hlen.symm)
    have hv : (validOf pre batch).isEmpty = false := List.isEmpty_eq_false.mpr hvne
    have htsne : (validOf pre batch).map Prod.snd ≠ [] := by
      intro he
      exact hvne (List.map_eq_nil_iff.mp he)
    obtain ⟨out, hok, hemit⟩ := hinfer _ htsne
    unfold stepBatch
    rw [if_neg (by simp [hv]), hok]
    show k ∈ (List.foldl _ st.1 _).map Prod.fst ↔ _
    rw [foldl_dictSet_keys]
    have hzip : (((validOf pre batch).map Prod.fst).zip
        (emitted out pooling normalize)).map Prod.fst = (validOf pre batch).map Prod.fst :=
      List.map_fst_zip _ _ (by
        rw [hemit, List.length_map, List.length_map])
    rw [hzip, hfst]

lemma runFold_keys_success {ι τ : Type} (pre : ι → Option τ)
    (infer : List τ → Except Unit NDArray) (pooling : String) (normalize : Bool)
    (hinfer : ∀ ts : List τ, ts ≠ [] → ∃ out, infer ts = Except.ok out
      ∧ (emitted out pooling normalize).length = ts.length)
    (cs : List (List (List Char × ι))) :
    ∀ (st : List (List Char × List ℝ) × ℕ) (k : List Char),
      (∀ c ∈ cs, ∀ q ∈ c, (pre q.2).isSome = true) →
      (k ∈ (cs.foldl (stepBatch pre infer pooling normalize) st).1.map Prod.fst
        ↔ (k ∈ st.1.map Prod.fst ∨ ∃ c ∈ cs, k ∈ c.map Prod.fst)) := by
  induction cs with
  | nil =>
    intro st k _
    simp only [List.foldl_nil]
    constructor
    · exact Or.inl
    · rintro (h | ⟨c, hc, _⟩)
      · exact h
      · exact absurd hc (List.not_mem_nil c)
  | cons c rest ih =>
    intro st k hpre
    simp only [List.foldl_cons]
    rw [ih _ k (fun c' hc' => hpre c' (List.mem_cons_of_mem _ hc')),
      stepBatch_keys_success pre infer pooling normalize c
        (hpre c (List.mem_cons_self _ _)) hinfer st k]
    simp only [List.mem_cons]
    constructor
    · rintro ((h | h) | ⟨c', hc', hk⟩)
      · exact Or.inl h
      · exact Or.inr ⟨c, Or.inl rfl, h⟩
      · exact Or.inr ⟨c', Or.inr hc', hk⟩
    · rintro (h | ⟨c', (he | hm), hk⟩)
      · exact Or.inl (Or.inl h)
      · exact Or.inl (Or.inr (he ▸ hk))
      · exact Or.inr ⟨c', hm, hk⟩

/-- Claim C8: with a pre-populated checkpoint, the work list is exactly
the scanned items whose identifier is not already a checkpoint key;
identifiers already in the checkpoint are never reprocessed; and when
every work-list item preprocesses successfully and every inference call
succeeds with one emitted row per input, the final mapping's keys — and
hence the records of the written Binary Embedding File, when no
identifier overflows the length byte — are exactly the loaded checkpoint
keys together with the work-list identifiers. -/
theorem c8_resumability {ι τ : Type} (pre : ι → Option τ)
    (infer : List τ → Except Unit NDArray) (pooling : String) (normalize : Bool)
    (b : ℕ) (all : List (List Char × ι)) (emb0 : List (List Char × List ℝ))
    (hb : 0 < b)
    (hpre : ∀ q ∈ toProcess all emb0, (pre q.2).isSome = true)
    (hinfer : ∀ ts : List τ, ts ≠ [] → ∃ out, infer ts = Except.ok out
      ∧ (emitted out pooling normalize).length = ts.length) :
    toProcess all emb0 = all.filter (fun q => decide (q.1 ∉ emb0.map Prod.fst))
    ∧ (∀ q ∈ toProcess all emb0, q.1 ∉ emb0.map Prod.fst)
    ∧ (∀ k, k ∈ (mainRun pre infer pooling normalize b all emb0).1.map Prod.fst
        ↔ (k ∈ emb0.map Prod.fst ∨ k ∈ (toProcess all emb0).map Prod.fst))
    ∧ ((∀ id ∈ (mainRun pre infer pooling normalize b all emb0).1.map Prod.fst,
          (utf8Str id).length ≤ 255) →
        ∀ k, k ∈ includedIds (mainRun pre infer pooling normalize b all emb0).1
          ↔ (k ∈ emb0.map Prod.fst ∨ k ∈ (toProcess all emb0).map Prod.fst)) := by
  have hkeys : ∀ k, k ∈ (mainRun pre infer pooling normalize b all emb0).1.map Prod.fst
      ↔ (k ∈ emb0.map Prod.fst ∨ k ∈ (toProcess all emb0).map Prod.fst) := by
    intro k
    unfold mainRun runBatches
    rw [runFold_keys_success pre infer pooling normalize hinfer _ _ k
      (fun c hc q hq => hpre q (chunks_sub b _ c hc q hq))]
    have hflat : (∃ c ∈ chunks b (toProcess all emb0), k ∈ c.map Prod.fst)
        ↔ k ∈ (toProcess all emb0).map Prod.fst := by
      rw [← flatten_fst_mem, chunks_flatten b hb]
    rw [hflat]
  refine ⟨rfl, toProcess_disjoint all emb0, hkeys, ?_⟩
  intro h255 k
  unfold includedIds
  rw [List.mem_filter]
  constructor
  · rintro ⟨hm, _⟩
    exact (hkeys k).mp hm
  · intro h
    have hm := (hkeys k).mpr h
    exact ⟨hm, by simpa using h255 k hm⟩

/-- Claim C8 witness: checkpoint holds `a`, the scan holds `a` and `b`;
the work list is exactly `b`, and the final mapping's keys are `a` and
`b`. -/
theorem c8_resumability_witness :
    (∀ q ∈ toProcess [(['a'], 0), (['b'], 1)] [(['a'], [(7 : ℝ)])],
        q.1 ∉ ([(['a'], [(7 : ℝ)])] : List (List Char × List ℝ)).map Prod.fst)
    ∧ ((['b'] : List Char) ∈ (mainRun (fun _ : ℕ => some ())
          (fun ts => Except.ok (NDArray.two (ts.map (fun _ => [0])))) "none" false 16
          [(['a'], 0), (['b'], 1)] [(['a'], [(7 : ℝ)])]).1.map Prod.fst
        ↔ ((['b'] : List Char) ∈ ([(['a'], [(7 : ℝ)])] : List (List Char × List ℝ)).map
              Prod.fst
          ∨ (['b'] : List Char)
              ∈ (toProcess [(['a'], 0), (['b'], 1)] [(['a'], [(7 : ℝ)])]).map Prod.fst)) := by
  have h := c8_resumability (fun _ : ℕ => some ())
    (fun ts => Except.ok (NDArray.two (ts.map (fun _ => [0])))) "none" false 16
    [(['a'], 0), (['b'], 1)] [(['a'], [(7 : ℝ)])] (by norm_num)
    (fun q _ => rfl)
    (fun ts hne => ⟨NDArray.two (ts.map (fun _ => [0])), rfl, by
      simp [emitted, apply_pooling, apply_normalization]⟩)
  exact ⟨h.2.1, h.2.2.1 ['b']⟩
